import Mathlib

/-!
Verification development for the `calculator.py` expression pipeline.

The repository implements a Tkinter calculator whose core is:
  * `Calculator._safe_prepare` — the expression normalizer
    (percent rewrite `re.sub(r'(\d+(\.\d+)?)\s*%', r'(\1/100)', expr)`,
    then `expr.replace('^', '**')`);
  * `Calculator._safe_eval` — the restricted evaluator
    (empty-strip shortcut, `ALLOWED_CHARS_RE` whitelist, normalizer,
    `__`/`import`/`exec`/`eval` substring blacklist, then Python `eval`
    restricted to `EVAL_GLOBALS`, and numeric coercion of the result);
  * `Calculator._eval` — the commit action (replace the stored expression
    with the stringified result on success, keep it unchanged on failure).

The host language's `eval` on the surviving character set is modelled as a
tokenizer, a recursive-descent parser for Python's arithmetic-expression
fragment (literals, `+ - * / // % **`, unary sign, parentheses, identifier
and call expressions), and a strict evaluator whose identifiers resolve
against `EVAL_GLOBALS` only.  Python `float` values are modelled as exact
rationals; applications of the transcendental `math` functions are
abstracted by an interpretation parameter (no claim depends on their
values, only on the fact — recorded as `Interp.app_num` — that they raise
on non-numeric arguments).

All recursive scanners are written with explicit fuel so that every
definition is executable and kernel-reducible on concrete inputs.
-/

namespace Calc

/-- ASCII whitespace characters matched by Python's `\s` and stripped by
`str.strip` (the inputs reaching the evaluator are ASCII-only). -/
def isPyWs (c : Char) : Bool :=
  c == ' ' || c == '\t' || c == '\n' || c == '\r' || c == '\x0b' || c == '\x0c'

/-- `expr.strip()` of Python, as the list of remaining characters. -/
def pyStrip (s : String) : List Char :=
  ((s.data.dropWhile isPyWs).reverse.dropWhile isPyWs).reverse

/-- Membership in the character class of
`ALLOWED_CHARS_RE = re.compile(r'^[0-9+\-*/().% \t\n,a-zA-Z_]*$')`. -/
def allowedChar (c : Char) : Bool :=
  c.isDigit || c.isAlpha || c == '+' || c == '-' || c == '*' || c == '/' ||
  c == '(' || c == ')' || c == '.' || c == '%' || c == ' ' || c == '\t' ||
  c == '\n' || c == ',' || c == '_'

/-- `ALLOWED_CHARS_RE.match(expr)` succeeding.  The anchored pattern
`^[class]*$` accepts exactly the strings all of whose characters lie in the
class: the only freedom of `$` (matching before a final newline) is
subsumed because `\n` itself belongs to the class. -/
def allowedString (s : String) : Bool :=
  s.data.all allowedChar

/-- One attempt of the percent regex `(\d+(\.\d+)?)\s*%` anchored at the
current position (which `subPctGo` only tries at a digit).  Returns the
matched numeric literal (capture group 1) and the input remaining after
the `%`.  Backtracking inside the regex never helps beyond the choice of
the optional fractional group, and when the fractional group matches but
no `%` follows, the groupless alternative is also doomed (the character
after the integer digits is `'.'`, which is neither whitespace nor `%`);
hence this deterministic scan is the regex's exact behavior. -/
def pctCore (l : List Char) : List Char × List Char :=
  match l.dropWhile Char.isDigit with
  | '.' :: r2 =>
    if r2.takeWhile Char.isDigit = [] then (l.takeWhile Char.isDigit, l.dropWhile Char.isDigit)
    else (l.takeWhile Char.isDigit ++ '.' :: r2.takeWhile Char.isDigit,
          r2.dropWhile Char.isDigit)
  | _ => (l.takeWhile Char.isDigit, l.dropWhile Char.isDigit)

def pctMatch (l : List Char) : Option (List Char × List Char) :=
  match (pctCore l).2.dropWhile isPyWs with
  | '%' :: r5 => some ((pctCore l).1, r5)
  | _ => none

/-- Left-to-right, non-overlapping scan of
`re.sub(r'(\d+(\.\d+)?)\s*%', r'(\1/100)', expr)`: at each position, if a
match starts there it is replaced by `(lit/100)` and scanning resumes
after the match (replacements are not rescanned); otherwise the character
is copied.  A match can only start at a digit.  Fuel decreases by one per
step while each step consumes at least one character, so `length l` fuel
suffices. -/
def subPctGo : Nat → List Char → List Char
  | 0, l => l
  | _ + 1, [] => []
  | f + 1, c :: rest =>
    if c.isDigit then
      match pctMatch (c :: rest) with
      | some (lit, rest') =>
        '(' :: (lit ++ '/' :: '1' :: '0' :: '0' :: ')' :: subPctGo f rest')
      | none => c :: subPctGo f rest
    else c :: subPctGo f rest

/-- The percent rewrite on a character list. -/
def subPct (l : List Char) : List Char :=
  subPctGo l.length l

/-- `expr.replace('^', '**')`. -/
def subCaret : List Char → List Char
  | [] => []
  | c :: rest => if c == '^' then '*' :: '*' :: subCaret rest else c :: subCaret rest

/-- `Calculator._safe_prepare`: percent rewrite, then caret-to-power.
This is the spec's `normalize`. -/
def safe_prepare (s : String) : String :=
  ⟨subCaret (subPct s.data)⟩

/-- `needle` is a prefix of `hay` (character lists). -/
def startsList : List Char → List Char → Bool
  | [], _ => true
  | _ :: _, [] => false
  | a :: as, b :: bs => a == b && startsList as bs

/-- Python's `needle in hay` substring test on character lists. -/
def hasSub (needle : List Char) : List Char → Bool
  | [] => startsList needle []
  | c :: rest => startsList needle (c :: rest) || hasSub needle rest

/-- The final safety check of `_safe_eval`:
`'__' in prepared or 'import' in prepared or 'exec' in prepared or
'eval' in prepared`. -/
def hasBadTok (s : String) : Bool :=
  hasSub "__".data s.data || hasSub "import".data s.data ||
  hasSub "exec".data s.data || hasSub "eval".data s.data

/-! ## Values

Python runtime values reachable inside the restricted `eval`: arbitrary
precision `int`s, `float`s (carried as exact rationals; every float the
host produces is rounded to binary64 by `fl` below at the operation that
creates it), the function objects stored in `SAFE_MATH`, bound methods
obtained by attribute access (`recv.name`), and the empty dict bound to
`__builtins__` in `EVAL_GLOBALS`. -/

inductive Value where
  | vint (n : ℤ)
  | vfloat (q : ℚ)
  | vfunc (fid : String)
  | vmeth (recv : Value) (name : String)
  | vdict
deriving DecidableEq

/-- Whether a value is a Python number (`isinstance(result, (int, float))`). -/
def Value.isNum : Value → Bool
  | .vint _ => true
  | .vfloat _ => true
  | _ => false

/-- Exact rational value of the binary64 double `math.pi`
(`math.pi.as_integer_ratio() == (884279719003555, 281474976710656)`). -/
def piQ : ℚ := (884279719003555 : ℚ) / 281474976710656

/-- Exact rational value of the binary64 double `math.e`
(`math.e.as_integer_ratio() == (6121026514868073, 2251799813685248)`). -/
def eQ : ℚ := (6121026514868073 : ℚ) / 2251799813685248

/-! ## Binary64 rounding

Python `float`s are binary64 doubles.  Values are carried as exact
rationals; every operation of the host that produces a float rounds its
mathematical result to 53 significant bits, nearest, ties to even, and
that rounding is modelled exactly by `fl` below.  The exponent range is
not bounded: overflow to infinity, `OverflowError` on huge `int / int`
quotients, and subnormal underflow lie outside every claim's inputs and
are not modelled. -/

/-- Fuel-based floor of the base-2 logarithm (`lg2 n n` is exact for
every `n`; fuel `n` suffices since the argument at least halves each
step). -/
def lg2 : ℕ → ℕ → ℕ
  | 0, _ => 0
  | f + 1, n => if n < 2 then 0 else lg2 f (n / 2) + 1

/-- Number of binary digits (`int.bit_length` of the host). -/
def bitlen (n : ℕ) : ℕ := if n = 0 then 0 else lg2 n n + 1

/-- Round the fraction `num / den` (with `den ≠ 0`) to the nearest
integer, ties to even. -/
def rndHalfEven (num den : ℕ) : ℕ :=
  if 2 * (num % den) < den then num / den
  else if den < 2 * (num % den) then num / den + 1
  else if num / den % 2 = 0 then num / den else num / den + 1

/-- `n / d * 2 ^ F` rounded to the nearest integer, ties to even. -/
def mantAt (n d : ℕ) (F : ℤ) : ℕ :=
  if 0 ≤ F then rndHalfEven (n * 2 ^ F.toNat) d else rndHalfEven n (d * 2 ^ (-F).toNat)

/-- `⌊n / d * 2 ^ F⌋` for an integer exponent `F`. -/
def floorAt (n d : ℕ) (F : ℤ) : ℕ :=
  if 0 ≤ F then n * 2 ^ F.toNat / d else n / (d * 2 ^ (-F).toNat)

/-- The scaling exponent for rounding `n / d`: the bit lengths give a
first candidate `F` with `⌊n / d * 2 ^ F⌋` within a factor two of
`[2 ^ 52, 2 ^ 53)`; one correction step lands it inside. -/
def flExp (n d : ℕ) : ℤ :=
  if floorAt n d (52 - (bitlen n : ℤ) + bitlen d) < 2 ^ 52
  then 52 - (bitlen n : ℤ) + bitlen d + 1
  else 52 - (bitlen n : ℤ) + bitlen d

/-- The binary64 value nearest to the positive rational `n / d`: with
`F = flExp n d` the scaled value `n / d * 2 ^ F` lies in
`[2 ^ 52, 2 ^ 53)`; round it to an integer mantissa `m` (ties to even)
and return `m * 2 ^ (-F)`. -/
def flPos (n d : ℕ) : ℚ :=
  if 0 ≤ flExp n d then (mantAt n d (flExp n d) : ℚ) / 2 ^ (flExp n d).toNat
  else (mantAt n d (flExp n d) : ℚ) * 2 ^ (-(flExp n d)).toNat

/-- Correctly rounded binary64 of a rational (round to nearest, ties to
even; exponent range unbounded, see the section comment). -/
def fl (q : ℚ) : ℚ :=
  if q = 0 then 0
  else if 0 < q then flPos q.num.natAbs q.den
  else -flPos q.num.natAbs q.den

/-- The safe dictionary of math functions exposed to `eval`
(`SAFE_MATH` in the source; `ln` is bound to the same function object as
`log`, namely `math.log`). -/
def SAFE_MATH : List (String × Value) := [
  ("sin", .vfunc "sin"),
  ("cos", .vfunc "cos"),
  ("tan", .vfunc "tan"),
  ("asin", .vfunc "asin"),
  ("acos", .vfunc "acos"),
  ("atan", .vfunc "atan"),
  ("sqrt", .vfunc "sqrt"),
  ("pow", .vfunc "pow"),
  ("log", .vfunc "log"),
  ("ln", .vfunc "log"),
  ("log10", .vfunc "log10"),
  ("exp", .vfunc "exp"),
  ("pi", .vfloat piQ),
  ("e", .vfloat eQ),
  ("abs", .vfunc "abs"),
  ("round", .vfunc "round"),
  ("int", .vfunc "int"),
  ("float", .vfunc "float")]

/-- `EVAL_GLOBALS = {"__builtins__": {}}; EVAL_GLOBALS.update(SAFE_MATH)`:
the globals dictionary passed to `eval` (the locals dictionary is empty,
so name resolution reads exactly these bindings). -/
def EVAL_GLOBALS : List (String × Value) := ("__builtins__", .vdict) :: SAFE_MATH

/-- The names of the Allowed Symbol Set (the keys of `SAFE_MATH`). -/
def safeNames : List String := SAFE_MATH.map Prod.fst

/-! ## Tokenizer

Lexer for the Python expression fragment reachable behind
`ALLOWED_CHARS_RE`: decimal integer and float literals (with optional
fraction and exponent), identifiers, the operators `+ - * / // % **`,
the attribute-access dot, parentheses and commas, with ASCII whitespace
between tokens.  Hexadecimal literals, underscores in numeric literals,
and the keyword operators `and or not in is` (lexed here as plain
identifiers, so inputs using them fail to parse) are reachable in the
host but not modelled: no witness or counterexample uses them, and the
universal theorems take the modelled parse as a hypothesis. -/

inductive Tok where
  | numT (isF : Bool) (q : ℚ)
  | ident (s : String)
  | plus | minus | star | slash | dslash | dstar | percent
  | lparen | rparen | comma | dot
deriving DecidableEq

/-- Characters allowed after the first character of an identifier. -/
def identChar (c : Char) : Bool := c.isAlpha || c.isDigit || c == '_'

/-- Characters allowed to start an identifier. -/
def identStart (c : Char) : Bool := c.isAlpha || c == '_'

/-- Value of a big-endian decimal digit string. -/
def digitsVal (l : List Char) : ℕ :=
  l.foldl (fun a c => 10 * a + (c.toNat - 48)) 0

/-- Apply a decimal exponent: `m * 10 ^ ev`, or `m / 10 ^ ev` when the
exponent is negative (`sgn = true`). -/
def expVal (sgn : Bool) (ev : ℕ) (m : ℚ) : ℚ :=
  if sgn then m / 10 ^ ev else m * 10 ^ ev

/-- Integer-plus-fraction part of a numeric literal: from the integer
digits `ip` and the remaining input `r1`, the float flag, mantissa value,
and remaining input after an optional `.fraction`. -/
def scanFrac (ip r1 : List Char) : Bool × ℚ × List Char :=
  match r1 with
  | '.' :: rr =>
    (true,
     (digitsVal ip : ℚ) +
       (digitsVal (rr.takeWhile Char.isDigit) : ℚ) / 10 ^ (rr.takeWhile Char.isDigit).length,
     rr.dropWhile Char.isDigit)
  | _ => (false, (digitsVal ip : ℚ), r1)

/-- Exponent digits of a numeric literal: if at least one digit follows
the (already consumed) `e`/sign, scale the mantissa, else the literal
ended before the `e` (which `r2` still starts with). -/
def scanExpTail (isF : Bool) (m : ℚ) (r2 rr2 : List Char) (sgn : Bool) : Tok × List Char :=
  if rr2.takeWhile Char.isDigit = [] then (.numT isF m, r2)
  else (.numT true (expVal sgn (digitsVal (rr2.takeWhile Char.isDigit)) m),
        rr2.dropWhile Char.isDigit)

/-- Optional `e`/`E` exponent with optional sign. -/
def scanExp (isF : Bool) (m : ℚ) (r2 : List Char) : Tok × List Char :=
  match r2 with
  | e :: rr =>
    if e == 'e' || e == 'E' then
      match rr with
      | '+' :: rr2 => scanExpTail isF m r2 rr2 false
      | '-' :: rr2 => scanExpTail isF m r2 rr2 true
      | _ => scanExpTail isF m r2 rr false
    else (.numT isF m, r2)
  | [] => (.numT isF m, [])

/-- Glue for `scanNum`. -/
def scanNumOf (p : Bool × ℚ × List Char) : Tok × List Char :=
  scanExp p.1 p.2.1 p.2.2

/-- Scan a decimal numeric literal (integer part, optional `.fraction`,
optional `e`/`E` exponent with optional sign).  Called on input starting
with a digit, or with `'.'` followed by a digit. -/
def scanNum (l : List Char) : Option (Tok × List Char) :=
  some (scanNumOf (scanFrac (l.takeWhile Char.isDigit) (l.dropWhile Char.isDigit)))

/-- Produce one token from head character `c` and remaining input `r`. -/
def tokStep (c : Char) (r : List Char) : Option (Tok × List Char) :=
  if c == '*' then
    match r with
    | '*' :: r2 => some (.dstar, r2)
    | _ => some (.star, r)
  else if c == '/' then
    match r with
    | '/' :: r2 => some (.dslash, r2)
    | _ => some (.slash, r)
  else if c == '+' then some (.plus, r)
  else if c == '-' then some (.minus, r)
  else if c == '(' then some (.lparen, r)
  else if c == ')' then some (.rparen, r)
  else if c == ',' then some (.comma, r)
  else if c == '%' then some (.percent, r)
  else if c.isDigit then scanNum (c :: r)
  else if c == '.' then
    match r with
    | d :: _ => if d.isDigit then scanNum (c :: r) else some (.dot, r)
    | [] => some (.dot, r)
  else if identStart c then
    some (.ident ⟨c :: r.takeWhile identChar⟩, r.dropWhile identChar)
  else none

/-- Fuel-indexed token scan; each step consumes at least one character, so
`length + 1` fuel always suffices. -/
def tokGo : Nat → List Char → Option (List Tok)
  | 0, _ => none
  | f + 1, l =>
    match l.dropWhile isPyWs with
    | [] => some []
    | c :: r =>
      match tokStep c r with
      | some (t, r2) => (tokGo f r2).map (t :: ·)
      | none => none

/-- Tokenize a character list. -/
def tokenize (l : List Char) : Option (List Tok) :=
  tokGo (l.length + 1) l

/-! ## Parser

Recursive-descent parser for Python's arithmetic-expression grammar on the
tokens above, with Python's precedence: `+ -` < `* / // %` < unary sign
< `**` (right-associative, whose right operand is a unary expression),
atoms being literals, names, parenthesized expressions, and call and
attribute trailers (comma-separated call arguments, trailing comma
allowed; an attribute trailer is a dot followed by an identifier).  Plain fuel
recursion keeps every function kernel-reducible; each parsing level
consumes fuel one unit per call, so linear fuel in the token count
suffices. -/

inductive BOp where
  | add | sub | mul | div | fdiv | mod | pow
deriving DecidableEq

mutual
inductive PExpr where
  | num (isF : Bool) (q : ℚ)
  | name (s : String)
  | neg (e : PExpr)
  | pos (e : PExpr)
  | bin (op : BOp) (a b : PExpr)
  | call (f : PExpr) (args : PArgs)
  | attr (a : PExpr) (name : String)
inductive PArgs where
  | nil
  | cons (a : PExpr) (rest : PArgs)
end

mutual
def parseE : Nat → List Tok → Option (PExpr × List Tok)
  | 0, _ => none
  | f + 1, ts =>
    match parseT f ts with
    | some (a, r) => parseELoop f a r
    | none => none

def parseELoop : Nat → PExpr → List Tok → Option (PExpr × List Tok)
  | 0, _, _ => none
  | f + 1, acc, ts =>
    match ts with
    | .plus :: r =>
      match parseT f r with
      | some (b, r2) => parseELoop f (.bin .add acc b) r2
      | none => none
    | .minus :: r =>
      match parseT f r with
      | some (b, r2) => parseELoop f (.bin .sub acc b) r2
      | none => none
    | _ => some (acc, ts)

def parseT : Nat → List Tok → Option (PExpr × List Tok)
  | 0, _ => none
  | f + 1, ts =>
    match parseF f ts with
    | some (a, r) => parseTLoop f a r
    | none => none

def parseTLoop : Nat → PExpr → List Tok → Option (PExpr × List Tok)
  | 0, _, _ => none
  | f + 1, acc, ts =>
    match ts with
    | .star :: r =>
      match parseF f r with
      | some (b, r2) => parseTLoop f (.bin .mul acc b) r2
      | none => none
    | .slash :: r =>
      match parseF f r with
      | some (b, r2) => parseTLoop f (.bin .div acc b) r2
      | none => none
    | .dslash :: r =>
      match parseF f r with
      | some (b, r2) => parseTLoop f (.bin .fdiv acc b) r2
      | none => none
    | .percent :: r =>
      match parseF f r with
      | some (b, r2) => parseTLoop f (.bin .mod acc b) r2
      | none => none
    | _ => some (acc, ts)

def parseF : Nat → List Tok → Option (PExpr × List Tok)
  | 0, _ => none
  | f + 1, ts =>
    match ts with
    | .minus :: r =>
      match parseF f r with
      | some (a, r2) => some (.neg a, r2)
      | none => none
    | .plus :: r =>
      match parseF f r with
      | some (a, r2) => some (.pos a, r2)
      | none => none
    | _ => parseP f ts

def parseP : Nat → List Tok → Option (PExpr × List Tok)
  | 0, _ => none
  | f + 1, ts =>
    match parseA f ts with
    | some (a, .dstar :: r2) =>
      match parseF f r2 with
      | some (b, r3) => some (.bin .pow a b, r3)
      | none => none
    | some (a, r) => some (a, r)
    | none => none

def parseA : Nat → List Tok → Option (PExpr × List Tok)
  | 0, _ => none
  | f + 1, ts =>
    match ts with
    | .numT isF q :: r => parseTrail f (.num isF q) r
    | .ident s :: r => parseTrail f (.name s) r
    | .lparen :: r =>
      match parseE f r with
      | some (a, .rparen :: r2) => parseTrail f a r2
      | _ => none
    | _ => none

def parseTrail : Nat → PExpr → List Tok → Option (PExpr × List Tok)
  | 0, _, _ => none
  | f + 1, acc, ts =>
    match ts with
    | .lparen :: r =>
      match r with
      | .rparen :: r2 => parseTrail f (.call acc .nil) r2
      | _ =>
        match parseArgs f r with
        | some (args, .rparen :: r2) => parseTrail f (.call acc args) r2
        | _ => none
    | .dot :: r =>
      match r with
      | .ident s :: r2 => parseTrail f (.attr acc s) r2
      | _ => none
    | _ => some (acc, ts)

def parseArgs : Nat → List Tok → Option (PArgs × List Tok)
  | 0, _ => none
  | f + 1, ts =>
    match parseE f ts with
    | some (a, r) =>
      match parseArgsLoop f r with
      | some (rest, r2) => some (.cons a rest, r2)
      | none => none
    | none => none

def parseArgsLoop : Nat → List Tok → Option (PArgs × List Tok)
  | 0, _ => none
  | f + 1, ts =>
    match ts with
    | .comma :: r =>
      match r with
      | .rparen :: _ => some (.nil, r)
      | _ =>
        match parseE f r with
        | some (a, r2) =>
          match parseArgsLoop f r2 with
          | some (rest, r3) => some (.cons a rest, r3)
          | none => none
        | none => none
    | _ => some (.nil, ts)
end

/-- Canonical parser fuel: generous linear bound in the token count (each
level of the grammar burns at most a constant amount of fuel per consumed
token). -/
def parseFuel (ts : List Tok) : Nat := 8 * ts.length + 30

/-- Parse a complete expression: all tokens must be consumed. -/
def pyParse (ts : List Tok) : Option PExpr :=
  match parseE (parseFuel ts) ts with
  | some (e, []) => some e
  | _ => none

/-! ## Evaluator

Strict evaluation of the parsed expression tree, with identifiers resolved
against `EVAL_GLOBALS` only (the locals dictionary of the `eval` call is
empty).  Faults model the exceptions Python can raise inside the `try`
block of `_safe_eval`; `_safe_eval` collapses them all into one
`ValueError("Error evaluating expression.")`. -/

inductive EvalFault where
  | syntaxFault
  | nameFault
  | typeFault
  | zeroDiv
deriving DecidableEq

/-- View a value as a Python number: `(isFloat, rational value)`. -/
def toNumV : Value → Option (Bool × ℚ)
  | .vint n => some (false, (n : ℚ))
  | .vfloat q => some (true, q)
  | _ => none

/-- Package a rational as `float` or (when the computation stayed in
`int`) as `int`; in the latter case the rational is an integer. -/
def mkNum (isF : Bool) (q : ℚ) : Value :=
  if isF then .vfloat q else .vint q.num

/-- Package the mathematical result of an arithmetic operation with
Python's typing and rounding: an `int` result is exact (arbitrary
precision), a `float` result is the binary64 rounding of the exact
value. -/
def mkRnd (isF : Bool) (q : ℚ) : Value :=
  if isF then .vfloat (fl q) else .vint q.num

/-- The semantics of the `math` functions in `SAFE_MATH`, and of the
host's attribute access and bound-method calls on built-in values, are
abstracted by an interpretation.  `app` interprets a call of the function
object `fid` at an argument list; `fpow` interprets `x ** y` for
non-integral `y`; `gattr` interprets `getattr(v, name)` (Python resolves
attributes on every object, e.g. `(1).bit_length` is the bound method of
the `int`); `mcall` interprets calling such a bound method.  `app_num`
records one fact of the host: every `SAFE_MATH` function raises (`Except`
error) on non-numeric arguments, so such a call never returns `ok` unless
all its arguments were numbers. -/
structure Interp where
  app : String → List Value → Except EvalFault Value
  fpow : ℚ → ℚ → Except EvalFault Value
  gattr : Value → String → Except EvalFault Value
  mcall : Value → String → List Value → Except EvalFault Value
  app_num : ∀ fid args v, app fid args = .ok v → ∀ a ∈ args, a.isNum = true

/-- Binary operator semantics on values: Python result-type tagging
(`int op int` stays `int` except true division; anything with a `float`
is `float`), `float` results rounded to binary64 (the host's float
addition, subtraction, multiplication, division and modulo return the
correctly rounded exact result; `float` floor division takes the floor
of the exact quotient, then rounds), floor division and modulo following
the sign of the divisor, and `**` with an integer exponent: exact in
`int`, rounded when any operand is a `float` or the exponent is negative
(the host's `pow` on doubles is taken as correctly rounded; no claim
depends on it). -/
def binApply (I : Interp) (op : BOp) (a b : Value) : Except EvalFault Value :=
  match toNumV a, toNumV b with
  | some (fa, qa), some (fb, qb) =>
    match op with
    | .add => .ok (mkRnd (fa || fb) (qa + qb))
    | .sub => .ok (mkRnd (fa || fb) (qa - qb))
    | .mul => .ok (mkRnd (fa || fb) (qa * qb))
    | .div => if qb = 0 then .error .zeroDiv else .ok (.vfloat (fl (qa / qb)))
    | .fdiv =>
      if qb = 0 then .error .zeroDiv
      else .ok (mkRnd (fa || fb) ((Rat.floor (qa / qb) : ℤ) : ℚ))
    | .mod =>
      if qb = 0 then .error .zeroDiv
      else .ok (mkRnd (fa || fb) (qa - qb * ((Rat.floor (qa / qb) : ℤ) : ℚ)))
    | .pow =>
      if qb.den = 1 then
        if qa = 0 ∧ qb.num < 0 then .error .zeroDiv
        else .ok (mkRnd (fa || fb || decide (qb.num < 0)) (qa ^ qb.num))
      else I.fpow qa qb
  | _, _ => .error .typeFault

mutual
def evalE (I : Interp) : PExpr → Except EvalFault Value
  | .num isF q => .ok (if isF then .vfloat (fl q) else .vint q.num)
  | .name n =>
    match EVAL_GLOBALS.lookup n with
    | some v => .ok v
    | none => .error .nameFault
  | .neg e =>
    match evalE I e with
    | .ok v =>
      match toNumV v with
      | some (f, q) => .ok (mkNum f (-q))
      | none => .error .typeFault
    | .error er => .error er
  | .pos e =>
    match evalE I e with
    | .ok v =>
      match toNumV v with
      | some (f, q) => .ok (mkNum f q)
      | none => .error .typeFault
    | .error er => .error er
  | .bin op a b =>
    match evalE I a with
    | .ok va =>
      match evalE I b with
      | .ok vb => binApply I op va vb
      | .error er => .error er
    | .error er => .error er
  | .call f args =>
    match evalE I f with
    | .ok vf =>
      match evalArgs I args with
      | .ok vs =>
        match vf with
        | .vfunc fid => I.app fid vs
        | .vmeth recv m => I.mcall recv m vs
        | _ => .error .typeFault
      | .error er => .error er
    | .error er => .error er
  | .attr a s =>
    match evalE I a with
    | .ok v => I.gattr v s
    | .error er => .error er

def evalArgs (I : Interp) : PArgs → Except EvalFault (List Value)
  | .nil => .ok []
  | .cons a rest =>
    match evalE I a with
    | .ok v =>
      match evalArgs I rest with
      | .ok vs => .ok (v :: vs)
      | .error er => .error er
    | .error er => .error er
end

/-- `eval(prepared, EVAL_GLOBALS, {})`: tokenize, parse, evaluate (a
lexing or parsing failure is Python's `SyntaxError`). -/
def pyEvalStr (I : Interp) (s : String) : Except EvalFault Value :=
  ((tokenize s.data).bind pyParse).elim (.error .syntaxFault) (evalE I)

/-- The failure taxonomy of the spec.  `_safe_eval` raises `ValueError`
with three distinct messages: "Invalid characters in expression."
(InvalidExpression), "Unsafe expression." (UnsafeExpression), and
"Error evaluating expression." (EvaluationError, which also covers the
"Result is not numeric." re-raise). -/
inductive CalcErr where
  | invalid
  | notSafe
  | evalError
deriving DecidableEq

instance {e a : Type} [DecidableEq e] [DecidableEq a] : DecidableEq (Except e a) :=
  fun x y =>
    match x, y with
    | .ok u, .ok v =>
      if h : u = v then isTrue (by rw [h]) else isFalse (by simp [h])
    | .error u, .error v =>
      if h : u = v then isTrue (by rw [h]) else isFalse (by simp [h])
    | .ok _, .error _ => isFalse (by simp)
    | .error _, .ok _ => isFalse (by simp)

/-- `Calculator._safe_eval`: empty-strip shortcut, character whitelist on
the raw input, normalization, substring blacklist on the normalized
string, then restricted evaluation with numeric coercion of the result
(a non-number result — a function object or dict — makes `float(result)`
raise, which is caught and reported as EvaluationError). -/
def safe_eval (I : Interp) (s : String) : Except CalcErr Value :=
  if pyStrip s = [] then .ok (.vint 0)
  else if allowedString s = false then .error .invalid
  else if hasBadTok (safe_prepare s) then .error .notSafe
  else
      match pyEvalStr I (safe_prepare s) with
      | .ok (.vint n) => .ok (.vint n)
      | .ok (.vfloat q) => .ok (.vfloat q)
      | .ok _ => .error .evalError
      | .error _ => .error .evalError

/-- `if isinstance(val, float) and val.is_integer(): val = int(val)`. -/
def intify : Value → Value
  | .vfloat q => if q.den = 1 then .vint q.num else .vfloat q
  | v => v

/-- `str(val)`.  For integers this is the exact decimal string; for the
remaining cases it stands in for Python's `repr` (the claims never depend
on its exact form, only on which string the commit stores). -/
def pyStrVal : Value → String
  | .vint n => toString n
  | .vfloat q => toString q
  | .vfunc fid => fid
  | .vmeth _ m => m
  | .vdict => "dict"

/-- `Calculator._eval`, the commit action: returns the new stored
expression text and whether the error box was shown.  On success the
expression becomes the stringified (integer-collapsed) result; on
`ValueError` the expression is left unchanged for the user to fix. -/
def commitEval (I : Interp) (expr : String) : String × Bool :=
  match safe_eval I expr with
  | .ok v => (pyStrVal (intify v), false)
  | .error _ => (expr, true)

/-- A concrete interpretation (every abstracted function application
raises), used to instantiate theorems at concrete inputs. -/
def I0 : Interp where
  app := fun _ _ => .error .typeFault
  fpow := fun _ _ => .error .typeFault
  gattr := fun _ _ => .error .typeFault
  mcall := fun _ _ _ => .error .typeFault
  app_num := fun _ _ _ h => absurd h (by simp)

/-- A concrete interpretation whose attribute semantics matches the host
on the point the counterexample exercises: `getattr(i, "bit_length")` on
an `int` is its bound `bit_length` method, and calling that method with
no arguments returns the bit length of the absolute value
(`(1).bit_length() == 1` in the host); every other abstracted operation
raises. -/
def IB : Interp where
  app := fun _ _ => .error .typeFault
  fpow := fun _ _ => .error .typeFault
  gattr := fun v s =>
    match v, s with
    | .vint n, "bit_length" => .ok (.vmeth (.vint n) "bit_length")
    | _, _ => .error .typeFault
  mcall := fun recv s args =>
    match recv, s, args with
    | .vint n, "bit_length", [] => .ok (.vint (bitlen n.natAbs : ℤ))
    | _, _, _ => .error .typeFault
  app_num := fun _ _ _ h => absurd h (by simp)

/-! ## Identifiers of a parsed expression (for the safety claim) -/

mutual
def idents : PExpr → List String
  | .num _ _ => []
  | .name s => [s]
  | .neg e => idents e
  | .pos e => idents e
  | .bin _ a b => idents a ++ idents b
  | .call f args => idents f ++ identsA args
  | .attr a _ => idents a

def identsA : PArgs → List String
  | .nil => []
  | .cons a rest => idents a ++ identsA rest
end

/-- The rational value a Python number carries, if the value is a number. -/
def numQ : Value → Option ℚ
  | .vint n => some (n : ℚ)
  | .vfloat q => some q
  | _ => none

/-! ## The spec's arithmetic strings and their mathematical value

Modelled from the spec: the claim "for every string composed only of
digits and `+-*/().%` with balanced parentheses and valid numeric syntax,
`evaluate` returns a number equal to its mathematical value" is formalized
over the grammar of such strings — decimal numerals, the percent postfix
on a numeral (the spec's step 1 reads `n%` as `n/100`), and parenthesized
sums, differences, products and quotients — together with its standard
rational-valued semantics.  `sprint` produces the string (fully
parenthesized, hence balanced), `sval` its mathematical value. -/

inductive SExp where
  | num (n : ℕ)
  | pct (n : ℕ)
  | add (a b : SExp)
  | sub (a b : SExp)
  | mul (a b : SExp)
  | div (a b : SExp)
deriving DecidableEq

/-- The mathematical value of a spec arithmetic expression. -/
def sval : SExp → ℚ
  | .num n => (n : ℚ)
  | .pct n => (n : ℚ) / 100
  | .add a b => sval a + sval b
  | .sub a b => sval a - sval b
  | .mul a b => sval a * sval b
  | .div a b => sval a / sval b

/-- No division by zero anywhere in the expression (the claim's
"mathematical value" presupposes every quotient is defined). -/
def zdfree : SExp → Bool
  | .num _ => true
  | .pct _ => true
  | .add a b => zdfree a && zdfree b
  | .sub a b => zdfree a && zdfree b
  | .mul a b => zdfree a && zdfree b
  | .div a b => zdfree a && zdfree b && decide (sval b ≠ 0)

theorem mem_of_mem_dropWhile {p : Char → Bool} {c : Char} :
    ∀ {l : List Char}, c ∈ l.dropWhile p → c ∈ l := by
  intro l
  induction l with
  | nil => simp [List.dropWhile]
  | cons a as ih =>
    simp only [List.dropWhile]
    intro h
    by_cases hp : p a
    · simp only [hp] at h
      exact List.mem_cons_of_mem a (ih h)
    · simp only [Bool.not_eq_true] at hp
      simp only [hp] at h
      exact h

theorem mem_of_mem_takeWhile {p : Char → Bool} {c : Char} :
    ∀ {l : List Char}, c ∈ l.takeWhile p → c ∈ l := by
  intro l
  induction l with
  | nil => simp [List.takeWhile]
  | cons a as ih =>
    simp only [List.takeWhile]
    intro h
    by_cases hp : p a
    · simp only [hp] at h
      rcases List.mem_cons.mp h with h | h
      · exact h ▸ List.mem_cons_self a as
      · exact List.mem_cons_of_mem a (ih h)
    · simp only [Bool.not_eq_true] at hp
      simp only [hp] at h
      simp at h

/-- Every character of the remainder component of `pctCore` occurs in the
input. -/
theorem pctCore_snd_mem {l : List Char} {c : Char} (h : c ∈ (pctCore l).2) : c ∈ l := by
  revert h
  unfold pctCore
  split
  · next r2 hd =>
    by_cases he : r2.takeWhile Char.isDigit = []
    · simp only [he, if_true]
      intro h
      exact mem_of_mem_dropWhile h
    · simp only [he, if_false]
      intro h
      have h1 : c ∈ ('.' :: r2 : List Char) :=
        List.mem_cons_of_mem _ (mem_of_mem_dropWhile h)
      exact mem_of_mem_dropWhile (hd ▸ h1)
  · next =>
    intro h
    exact mem_of_mem_dropWhile h

/-- If no `%` occurs in the input, the percent regex cannot match. -/
theorem pctMatch_none {l : List Char} (h : '%' ∉ l) : pctMatch l = none := by
  unfold pctMatch
  split
  · next r5 hm =>
    exfalso
    have h1 : '%' ∈ (pctCore l).2.dropWhile isPyWs := hm ▸ List.mem_cons_self '%' r5
    exact h (pctCore_snd_mem (mem_of_mem_dropWhile h1))
  · rfl

/-- With no `%` in the input, the percent substitution is the identity
(at any fuel). -/
theorem subPctGo_id : ∀ (f : Nat) (l : List Char), '%' ∉ l → subPctGo f l = l := by
  intro f
  induction f with
  | zero => intro l _; rfl
  | succ f ih =>
    intro l h
    cases l with
    | nil => rfl
    | cons c rest =>
      have hrest : '%' ∉ rest := fun hr => h (List.mem_cons_of_mem c hr)
      by_cases hd : c.isDigit
      · simp only [subPctGo, hd, if_true, pctMatch_none h, ih rest hrest]
      · simp only [Bool.not_eq_true] at hd
        simp only [subPctGo, hd, Bool.false_eq_true, if_false, ih rest hrest]

/-- With no `^` in the input, the caret substitution is the identity. -/
theorem subCaret_id : ∀ {l : List Char}, '^' ∉ l → subCaret l = l := by
  intro l
  induction l with
  | nil => intro _; rfl
  | cons c rest ih =>
    intro h
    have hc : (c == '^') = false := by
      cases hcc : c == '^'
      · rfl
      · exact absurd (List.mem_cons_self c rest) ((beq_iff_eq.mp hcc : c = '^') ▸ h)
    simp only [subCaret, hc, Bool.false_eq_true, if_false,
      ih (fun hr => h (List.mem_cons_of_mem c hr))]

/-- A string without `%` and `^` is a fixed point of the normalizer. -/
theorem safe_prepare_id {s : String} (h1 : '%' ∉ s.data) (h2 : '^' ∉ s.data) :
    safe_prepare s = s := by
  unfold safe_prepare subPct
  rw [subPctGo_id _ _ h1, subCaret_id h2]

/-- C9: `normalize` (the source's `_safe_prepare`) is idempotent on inputs
whose first normalization pass leaves no `%` and no `^`:
`normalize (normalize x) = normalize x`. -/
theorem claim_C9 (x : String) (h1 : '%' ∉ (safe_prepare x).data)
    (h2 : '^' ∉ (safe_prepare x).data) :
    safe_prepare (safe_prepare x) = safe_prepare x :=
  safe_prepare_id h1 h2

/-- C9 witness: the hypotheses and conclusion at `x = "50%+2"`. -/
theorem claim_C9_witness :
    '%' ∉ (safe_prepare "50%+2").data ∧ '^' ∉ (safe_prepare "50%+2").data ∧
    safe_prepare (safe_prepare "50%+2") = safe_prepare "50%+2" :=
  ⟨by decide, by decide, claim_C9 "50%+2" (by decide) (by decide)⟩

/-- `takeWhile` over an append whose left part wholly satisfies the
predicate and whose right part starts by refuting it. -/
theorem takeWhile_append_all {p : Char → Bool} :
    ∀ (l1 l2 : List Char), (∀ c ∈ l1, p c = true) →
      (∀ c l', l2 = c :: l' → p c = false) →
      (l1 ++ l2).takeWhile p = l1 := by
  intro l1
  induction l1 with
  | nil =>
    intro l2 _ h2
    cases l2 with
    | nil => rfl
    | cons c l' => simp [List.takeWhile, h2 c l' rfl]
  | cons a as ih =>
    intro l2 h1 h2
    have ha : p a = true := h1 a (List.mem_cons_self a as)
    simp only [List.cons_append, List.takeWhile, ha]
    rw [List.append_eq, ih l2 (fun c hc => h1 c (List.mem_cons_of_mem a hc)) h2]

/-- `dropWhile` over the same kind of append. -/
theorem dropWhile_append_all {p : Char → Bool} :
    ∀ (l1 l2 : List Char), (∀ c ∈ l1, p c = true) →
      (∀ c l', l2 = c :: l' → p c = false) →
      (l1 ++ l2).dropWhile p = l2 := by
  intro l1
  induction l1 with
  | nil =>
    intro l2 _ h2
    cases l2 with
    | nil => rfl
    | cons c l' => simp [List.dropWhile, h2 c l' rfl]
  | cons a as ih =>
    intro l2 h1 h2
    have ha : p a = true := h1 a (List.mem_cons_self a as)
    simp only [List.cons_append, List.dropWhile, ha]
    rw [List.append_eq]
    exact ih l2 (fun c hc => h1 c (List.mem_cons_of_mem a hc)) h2

theorem ws_not_digit {c : Char} (h : isPyWs c = true) : c.isDigit = false := by
  simp only [isPyWs, Bool.or_eq_true, beq_iff_eq] at h
  rcases h with ((((rfl | rfl) | rfl) | rfl) | rfl) | rfl <;> decide

theorem ws_ne_dot {c : Char} (h : isPyWs c = true) : c ≠ '.' := by
  simp only [isPyWs, Bool.or_eq_true, beq_iff_eq] at h
  rcases h with ((((rfl | rfl) | rfl) | rfl) | rfl) | rfl <;> decide

theorem digit_ne_pct {c : Char} (h : c.isDigit = true) : c ≠ '%' := by
  intro he
  subst he
  simp at h

theorem digit_ne_caret {c : Char} (h : c.isDigit = true) : c ≠ '^' := by
  intro he
  subst he
  simp at h

/-- `subPctGo` maps the empty list to itself at any fuel. -/
theorem subPctGo_nil : ∀ f, subPctGo f [] = [] := by
  intro f
  cases f <;> rfl

/-- The percent match on `digits ++ whitespace ++ "%"`. -/
theorem pctMatch_digits_ws {d w : List Char} (_hd : d ≠ [])
    (h1 : ∀ c ∈ d, c.isDigit = true) (h2 : ∀ c ∈ w, isPyWs c = true) :
    pctMatch (d ++ (w ++ ['%'])) = some (d, []) := by
  have hw : ∀ c l', w ++ ['%'] = c :: l' → c.isDigit = false := by
    intro c l' he
    cases w with
    | nil =>
      simp only [List.nil_append, List.cons.injEq] at he
      rw [← he.1]
      decide
    | cons a as =>
      simp only [List.cons_append, List.cons.injEq] at he
      exact ws_not_digit (he.1 ▸ h2 a (List.mem_cons_self a as))
  have htw : (d ++ (w ++ ['%'])).takeWhile Char.isDigit = d :=
    takeWhile_append_all d (w ++ ['%']) h1 hw
  have hdw : (d ++ (w ++ ['%'])).dropWhile Char.isDigit = w ++ ['%'] :=
    dropWhile_append_all d (w ++ ['%']) h1 hw
  have hcore : pctCore (d ++ (w ++ ['%'])) = (d, w ++ ['%']) := by
    unfold pctCore
    split
    · next r2 hdot =>
      exfalso
      rw [hdw] at hdot
      cases w with
      | nil => simp at hdot
      | cons a as =>
        simp only [List.cons_append, List.cons.injEq] at hdot
        exact ws_ne_dot (h2 a (List.mem_cons_self a as)) hdot.1
    · next =>
      rw [htw, hdw]
  have hwp : (w ++ ['%']).dropWhile isPyWs = ['%'] :=
    dropWhile_append_all w ['%'] h2 (by
      intro c l' he
      simp only [List.cons.injEq] at he
      rw [← he.1]
      decide)
  unfold pctMatch
  rw [hcore]
  simp only [hwp]

/-- C10: the percent rewrite tolerates whitespace between the numeric
literal and the percent sign — for a digit string `d` and a run of
whitespace `w`, `normalize (d ++ w ++ "%") = "(" ++ d ++ "/100)"`. -/
theorem claim_C10 (d w : List Char) (hd : d ≠ [])
    (h1 : ∀ c ∈ d, c.isDigit = true) (h2 : ∀ c ∈ w, isPyWs c = true) :
    safe_prepare ⟨d ++ (w ++ ['%'])⟩ =
      ⟨'(' :: (d ++ '/' :: '1' :: '0' :: '0' :: [')'])⟩ := by
  unfold safe_prepare subPct
  cases d with
  | nil => exact absurd rfl hd
  | cons c d' =>
    show String.mk (subCaret (subPctGo ((c :: (d' ++ (w ++ ['%']))).length)
      (c :: (d' ++ (w ++ ['%']))))) = _
    have hlen : (c :: (d' ++ (w ++ ['%']))).length = (d' ++ (w ++ ['%'])).length + 1 := rfl
    rw [hlen]
    have hc : c.isDigit = true := h1 c (List.mem_cons_self c d')
    have hm : pctMatch (c :: (d' ++ (w ++ ['%']))) = some (c :: d', []) :=
      pctMatch_digits_ws hd h1 h2
    simp only [subPctGo, hc, if_true, hm, subPctGo_nil]
    have hnc : '^' ∉ ('(' :: ((c :: d') ++ '/' :: '1' :: '0' :: '0' :: ')' :: [])) := by
      intro hmem
      rcases List.mem_cons.mp hmem with he | hmem
      · exact absurd he.symm (by decide)
      · rcases List.mem_append.mp hmem with hmem | hmem
        · exact digit_ne_caret (h1 _ hmem) rfl
        · rcases List.mem_cons.mp hmem with he | hmem
          · exact absurd he.symm (by decide)
          · rcases List.mem_cons.mp hmem with he | hmem
            · exact absurd he.symm (by decide)
            · rcases List.mem_cons.mp hmem with he | hmem
              · exact absurd he.symm (by decide)
              · rcases List.mem_cons.mp hmem with he | hmem
                · exact absurd he.symm (by decide)
                · rcases List.mem_cons.mp hmem with he | hmem
                  · exact absurd he.symm (by decide)
                  · simp at hmem
    rw [subCaret_id hnc]

/-- C10 witness: `normalize "50 %" = "(50/100)"`. -/
theorem claim_C10_witness :
    safe_prepare ⟨['5', '0'] ++ ([' '] ++ ['%'])⟩ =
      ⟨'(' :: (['5', '0'] ++ '/' :: '1' :: '0' :: '0' :: [')'])⟩ :=
  claim_C10 ['5', '0'] [' '] (by decide) (by decide) (by decide)

/-! ## Claims about the evaluator's guard clauses and the commit action -/

/-- C8: for every input whose trimmed form is empty, `evaluate` returns
the integer zero (not a failure). -/
theorem claim_C8 (I : Interp) (s : String) (h : pyStrip s = []) :
    safe_eval I s = .ok (.vint 0) := by
  simp [safe_eval, h]

/-- C8 witness: `evaluate ""` and `evaluate "   "` both return `0`. -/
theorem claim_C8_witness :
    safe_eval I0 "" = .ok (.vint 0) ∧ safe_eval I0 "   " = .ok (.vint 0) :=
  ⟨claim_C8 I0 "" (by decide), claim_C8 I0 "   " (by decide)⟩

/-- C3 counterexample: `evaluate "2^3"` does not return `8`; it fails with
InvalidExpression, because `^` is outside `ALLOWED_CHARS_RE` and the
character whitelist runs on the raw input before the normalizer replaces
`^` with `**`. -/
theorem claim_C3_cex :
    safe_eval I0 "2^3" ≠ .ok (.vint 8) ∧ safe_eval I0 "2^3" = .error .invalid := by
  decide

/-- C3 (amended): the normalizer does replace every `^` with `**`, and
exponentiation written `**` evaluates to `8` through the full pipeline,
but `evaluate "2^3"` itself fails with InvalidExpression since the
character whitelist rejects `^` before normalization. -/
theorem claim_C3 (I : Interp) :
    safe_prepare "2^3" = "2**3" ∧ safe_eval I "2**3" = .ok (.vint 8) ∧
    safe_eval I "2^3" = .error .invalid :=
  ⟨rfl, by with_unfolding_all rfl, rfl⟩

/-- C3 witness: the amended statement at the concrete interpretation. -/
theorem claim_C3_witness :
    safe_prepare "2^3" = "2**3" ∧ safe_eval I0 "2**3" = .ok (.vint 8) ∧
    safe_eval I0 "2^3" = .error .invalid :=
  claim_C3 I0

/-- C4 counterexample: `"_"` consists of a character outside the claimed
whitelist (digits, `+ - * / ( ) . % , space`, ASCII letters), yet
`evaluate "_"` does not fail with InvalidExpression — the underscore is in
`ALLOWED_CHARS_RE`, so validation passes and the failure only arises at
evaluation time (unresolvable name), as EvaluationError. -/
theorem claim_C4_cex :
    safe_eval I0 "_" ≠ .error .invalid ∧ safe_eval I0 "_" = .error .evalError := by
  decide

/-- C4 (amended): the implemented whitelist is digits, ASCII letters, and
`+ - * / ( ) . % , space tab newline underscore`; for every input with a
nonempty trimmed form containing a character outside that set, `evaluate`
fails with InvalidExpression, and character validation accepts exactly the
strings drawn from that set. -/
theorem claim_C4 (I : Interp) (s : String) (h1 : pyStrip s ≠ [])
    (h2 : allowedString s = false) :
    safe_eval I s = .error .invalid ∧ ∃ c ∈ s.data, allowedChar c = false := by
  constructor
  · simp [safe_eval, h1, h2]
  · unfold allowedString at h2
    rcases List.all_eq_false.mp h2 with ⟨cc, hmem, hval⟩
    exact ⟨cc, hmem, by simpa using hval⟩

/-- C4 witness: the amended statement at `s = "2@3"`. -/
theorem claim_C4_witness :
    safe_eval I0 "2@3" = .error .invalid ∧ ∃ c ∈ "2@3".data, allowedChar c = false :=
  claim_C4 I0 "2@3" (by decide) (by decide)

/-- C5 counterexample: the input `"__$"` has a normalized form containing
a double underscore, yet `evaluate "__$"` fails with InvalidExpression,
not UnsafeExpression — the character whitelist rejects `$` before the
blacklist runs. -/
theorem claim_C5_cex :
    hasBadTok (safe_prepare "__$") = true ∧
    safe_eval I0 "__$" ≠ .error .notSafe ∧
    safe_eval I0 "__$" = .error .invalid := by
  decide

/-- C5 (amended): for every input with nonempty trimmed form that passes
character validation and whose normalized form contains `__`, `import`,
`exec` or `eval`, `evaluate` fails with UnsafeExpression without the
expression ever being evaluated; in particular `evaluate "import os"` and
`evaluate "exec(1)"` fail with UnsafeExpression. -/
theorem claim_C5 (I : Interp) :
    (∀ s, pyStrip s ≠ [] → allowedString s = true → hasBadTok (safe_prepare s) = true →
      safe_eval I s = .error .notSafe) ∧
    safe_eval I "import os" = .error .notSafe ∧
    safe_eval I "exec(1)" = .error .notSafe := by
  refine ⟨fun s h1 h2 h3 => ?_, rfl, rfl⟩
  simp [safe_eval, h1, h2, h3]

/-- C5 witness: the universal part applied at `s = "1+eval"`, with all
hypotheses discharged by computation. -/
theorem claim_C5_witness :
    pyStrip "1+eval" ≠ [] ∧ allowedString "1+eval" = true ∧
    hasBadTok (safe_prepare "1+eval") = true ∧
    safe_eval I0 "1+eval" = .error .notSafe :=
  ⟨by decide, by decide, by decide,
   (claim_C5 I0).1 "1+eval" (by decide) (by decide) (by decide)⟩

/-- C6: for every input that passes the empty check, character validation
and the unsafe-token check, any failure of the underlying evaluation —
and likewise a non-numeric evaluation result — is reported as
EvaluationError (the total `safe_eval` never propagates the fault);
in particular `evaluate "1/0"` and `evaluate "foo(1)"` fail with
EvaluationError. -/
theorem claim_C6 (I : Interp) :
    (∀ s er, pyStrip s ≠ [] → allowedString s = true →
      hasBadTok (safe_prepare s) = false →
      pyEvalStr I (safe_prepare s) = .error er →
      safe_eval I s = .error .evalError) ∧
    (∀ s v, pyStrip s ≠ [] → allowedString s = true →
      hasBadTok (safe_prepare s) = false →
      pyEvalStr I (safe_prepare s) = .ok v → v.isNum = false →
      safe_eval I s = .error .evalError) ∧
    safe_eval I "1/0" = .error .evalError ∧
    safe_eval I "foo(1)" = .error .evalError := by
  refine ⟨fun s er h1 h2 h3 h4 => ?_, fun s v h1 h2 h3 h4 h5 => ?_, rfl, rfl⟩
  · simp [safe_eval, h1, h2, h3, h4]
  · cases v with
    | vint n => simp [Value.isNum] at h5
    | vfloat q => simp [Value.isNum] at h5
    | vfunc fid => simp [safe_eval, h1, h2, h3, h4]
    | vmeth recv m => simp [safe_eval, h1, h2, h3, h4]
    | vdict => simp [safe_eval, h1, h2, h3, h4]

/-- C6 witness: the error branch applied at `s = "(1"` (a syntax fault of
the inner evaluation), with all hypotheses discharged by computation. -/
theorem claim_C6_witness :
    pyEvalStr I0 (safe_prepare "(1") = .error .syntaxFault ∧
    safe_eval I0 "(1" = .error .evalError :=
  ⟨by decide, (claim_C6 I0).1 "(1" .syntaxFault (by decide) (by decide) (by decide)
    (by decide)⟩

/-- C7: on commit, a failing evaluation leaves the stored expression text
unchanged (and shows the error box), and a successful evaluation replaces
it with the stringified numeric result (floats that are mathematically
integers collapsed to integers first); no other outcome exists. -/
theorem claim_C7 (I : Interp) (s : String) :
    (∀ er, safe_eval I s = .error er → commitEval I s = (s, true)) ∧
    (∀ v, safe_eval I s = .ok v → commitEval I s = (pyStrVal (intify v), false)) :=
  ⟨fun er h => by simp [commitEval, h], fun v h => by simp [commitEval, h]⟩

/-- C7 witness: both branches at concrete inputs — `commit "1/0"` keeps
the text `"1/0"`, `commit "4/2"` stores `"2"`. -/
theorem claim_C7_witness :
    commitEval I0 "1/0" = ("1/0", true) ∧ commitEval I0 "4/2" = ("2", false) := by
  constructor
  · exact (claim_C7 I0 "1/0").1 .evalError (by rfl)
  · have h : safe_eval I0 "4/2" = .ok (.vfloat 2) := by with_unfolding_all rfl
    have h2 := (claim_C7 I0 "4/2").2 (.vfloat 2) h
    rw [h2]
    with_unfolding_all rfl

/-! ## C1: name resolution, and the attribute-access escape -/

theorem toNumV_isNum {v : Value} {p : Bool × ℚ} (h : toNumV v = some p) :
    v.isNum = true := by
  cases v <;> simp_all [toNumV, Value.isNum]

theorem isNum_ne_vdict {v : Value} (h : v.isNum = true) : v ≠ .vdict := by
  cases v <;> simp_all [Value.isNum]

/-- A successful binary operation had numeric operands. -/
theorem binApply_args_num {I : Interp} {op : BOp} {a b v : Value}
    (h : binApply I op a b = .ok v) : a.isNum = true ∧ b.isNum = true := by
  unfold binApply at h
  cases ha : toNumV a with
  | none => rw [ha] at h; cases hb : toNumV b <;> simp [hb] at h
  | some pa =>
    cases hb : toNumV b with
    | none => rw [ha, hb] at h; simp at h
    | some pb => exact ⟨toNumV_isNum ha, toNumV_isNum hb⟩

/-- A successful dictionary lookup means the key is among the stored
keys. -/
theorem lookup_mem_keys :
    ∀ (L : List (String × Value)) (n : String) (v : Value),
      L.lookup n = some v → n ∈ L.map Prod.fst := by
  intro L
  induction L with
  | nil => intro n v h; simp [List.lookup] at h
  | cons kv L ih =>
    intro n v h
    rcases kv with ⟨k, b⟩
    rw [List.lookup] at h
    cases hk : n == k with
    | true =>
      simp only [List.map_cons, List.mem_cons]
      exact Or.inl (beq_iff_eq.mp hk)
    | false =>
      rw [hk] at h
      exact List.mem_cons_of_mem _ (ih n v h)

/-- Name resolution in `EVAL_GLOBALS` yields a non-dict value only for the
names of the Allowed Symbol Set (the `__builtins__` binding holds the
empty dict). -/
theorem lookup_globals_safe {n : String} {v : Value}
    (h : EVAL_GLOBALS.lookup n = some v) (hv : v ≠ .vdict) : n ∈ safeNames := by
  by_cases hb : n = "__builtins__"
  · subst hb
    rw [show EVAL_GLOBALS.lookup "__builtins__" = some .vdict from rfl] at h
    exact absurd (Option.some.injEq _ _ ▸ h : Value.vdict = v).symm hv
  · have hbeq : (n == "__builtins__") = false := by
      cases hq : n == "__builtins__"
      · rfl
      · exact absurd (beq_iff_eq.mp hq) hb
    rw [show EVAL_GLOBALS = ("__builtins__", Value.vdict) :: SAFE_MATH from rfl,
      List.lookup, hbeq] at h
    exact lookup_mem_keys SAFE_MATH n v h

/-- The names bound in the globals dictionary of the `eval` call:
`__builtins__` followed by the Allowed Symbol Set. -/
def globalNames : List String := EVAL_GLOBALS.map Prod.fst

mutual
/-- Inductive argument: if evaluation of an expression succeeds, every
identifier occurring in it was looked up — successfully — in
`EVAL_GLOBALS` (evaluation is strict, so every subexpression whose
identifiers appear evaluated first), hence is one of its keys. -/
theorem evalE_names (I : Interp) :
    ∀ (e : PExpr) (v : Value), evalE I e = .ok v →
      ∀ n ∈ idents e, n ∈ globalNames
  | .num isF q, v, h => by simp [idents]
  | .name s, v, h => by
    simp only [idents, List.mem_singleton]
    intro n hn
    subst hn
    revert h
    unfold evalE
    cases hl : EVAL_GLOBALS.lookup n with
    | none => intro h; simp at h
    | some w => intro _; exact lookup_mem_keys EVAL_GLOBALS n w hl
  | .neg e, v, h => by
    revert h
    unfold evalE
    cases he : evalE I e with
    | error er => intro h; simp at h
    | ok w => intro _; simpa [idents] using evalE_names I e w he
  | .pos e, v, h => by
    revert h
    unfold evalE
    cases he : evalE I e with
    | error er => intro h; simp at h
    | ok w => intro _; simpa [idents] using evalE_names I e w he
  | .bin op a b, v, h => by
    revert h
    unfold evalE
    cases ha : evalE I a with
    | error er => intro h; simp at h
    | ok va =>
      cases hb : evalE I b with
      | error er => intro h; simp at h
      | ok vb =>
        intro _ n hn
        rcases List.mem_append.mp (by simpa [idents] using hn) with hn | hn
        · exact evalE_names I a va ha n hn
        · exact evalE_names I b vb hb n hn
  | .call f args, v, h => by
    revert h
    unfold evalE
    cases hf : evalE I f with
    | error er => intro h; simp at h
    | ok vf =>
      cases hargs : evalArgs I args with
      | error er => intro h; simp at h
      | ok vs =>
        intro _ n hn
        rcases List.mem_append.mp (by simpa [idents] using hn) with hn | hn
        · exact evalE_names I f vf hf n hn
        · exact evalArgs_names I args vs hargs n hn
  | .attr a s, v, h => by
    revert h
    unfold evalE
    cases ha : evalE I a with
    | error er => intro h; simp at h
    | ok w => intro _; simpa [idents] using evalE_names I a w ha

/-- Companion inductive argument for argument lists. -/
theorem evalArgs_names (I : Interp) :
    ∀ (as : PArgs) (vs : List Value), evalArgs I as = .ok vs →
      ∀ n ∈ identsA as, n ∈ globalNames
  | .nil, vs, h => by simp [identsA]
  | .cons a rest, vs, h => by
    revert h
    unfold evalArgs
    cases ha : evalE I a with
    | error er => intro h; simp at h
    | ok w =>
      cases hrest : evalArgs I rest with
      | error er => intro h; simp at h
      | ok ws =>
        intro _ n hn
        rcases List.mem_append.mp (by simpa [identsA] using hn) with hn | hn
        · exact evalE_names I a w ha n hn
        · exact evalArgs_names I rest ws hrest n hn
end

/-- An input whose `strip()` is empty consists of whitespace only. -/
theorem allWs_of_strip_nil {s : String} (h : pyStrip s = []) :
    ∀ c ∈ s.data, isPyWs c = true := by
  unfold pyStrip at h
  have h2 : (s.data.dropWhile isPyWs).reverse.dropWhile isPyWs = [] := by
    cases hk : (s.data.dropWhile isPyWs).reverse.dropWhile isPyWs with
    | nil => rfl
    | cons x xs => rw [hk] at h; simp at h
  have h3 : ∀ c ∈ (s.data.dropWhile isPyWs).reverse, isPyWs c = true :=
    List.dropWhile_eq_nil_iff.mp h2
  intro c hc
  by_cases hw : isPyWs c = true
  · exact hw
  · have : c ∈ s.data.dropWhile isPyWs := by
      have hsplit : s.data = s.data.takeWhile isPyWs ++ s.data.dropWhile isPyWs :=
        (List.takeWhile_append_dropWhile isPyWs s.data).symm
      rcases List.mem_append.mp (hsplit ▸ hc) with hmem | hmem
      · exact absurd (List.mem_takeWhile_imp hmem) hw
      · exact hmem
    exact h3 c (List.mem_reverse.mpr this)

/-- Tokenizing pure whitespace yields no tokens. -/
theorem tokenize_allWs {l : List Char} (h : ∀ c ∈ l, isPyWs c = true) :
    tokenize l = some [] := by
  unfold tokenize
  rw [show tokGo (l.length + 1) l =
    (match l.dropWhile isPyWs with
     | [] => some []
     | c :: r =>
       match tokStep c r with
       | some (t, r2) => (tokGo l.length r2).map (t :: ·)
       | none => none) from rfl]
  rw [List.dropWhile_eq_nil_iff.mpr h]

/-- C1 (amended): whenever `evaluate` succeeds, every bare identifier of
the evaluated expression resolved against the globals of the `eval` call
only — it is `__builtins__` (bound to the inert empty dict) or one of the
seventeen `SAFE_MATH` names; no other global name is reachable.  This is
the part of the claim the code keeps.  The claim's stronger guarantee —
that nothing outside the Allowed Symbol Set can execute — is refuted by
the attribute-access counterexample below. -/
theorem claim_C1 (I : Interp) (s : String) (v : Value)
    (h : safe_eval I s = .ok v) :
    ∀ ts e, tokenize (safe_prepare s).data = some ts → pyParse ts = some e →
      ∀ n ∈ idents e, n = "__builtins__" ∨ n ∈ safeNames := by
  intro ts e hts hpe
  by_cases hstrip : pyStrip s = []
  · -- whitespace-only input: nothing parses, the hypotheses are absurd
    have hws := allWs_of_strip_nil hstrip
    have hpct : '%' ∉ s.data := fun hm => by
      have := hws '%' hm
      simp [isPyWs] at this
    have hcar : '^' ∉ s.data := fun hm => by
      have := hws '^' hm
      simp [isPyWs] at this
    rw [safe_prepare_id hpct hcar] at hts
    rw [tokenize_allWs hws] at hts
    have hts' : ts = [] := by
      simpa using hts.symm
    subst hts'
    rw [show pyParse [] = none from rfl] at hpe
    exact absurd hpe (by simp)
  · unfold safe_eval at h
    rw [if_neg hstrip] at h
    by_cases hallow : allowedString s = false
    · rw [if_pos hallow] at h
      exact absurd h (by simp)
    · rw [if_neg hallow] at h
      by_cases hbad : hasBadTok (safe_prepare s) = true
      · rw [if_pos hbad] at h
        exact absurd h (by simp)
      · rw [if_neg hbad] at h
        have hcomb : (tokenize (safe_prepare s).data).bind pyParse = some e := by
          rw [hts]
          simpa using hpe
        unfold pyEvalStr at h
        rw [hcomb] at h
        simp only [Option.elim] at h
        cases hev : evalE I e with
        | error er => rw [hev] at h; exact absurd h (by simp)
        | ok w =>
          exact fun n hn => List.mem_cons.mp (evalE_names I e w hev n hn)

/-- C1 witness: `evaluate "pi"` succeeds, the normalized input parses to
the identifier `pi`, and the theorem places it among the resolvable
names. -/
theorem claim_C1_witness :
    safe_eval I0 "pi" = .ok (.vfloat piQ) ∧
      ("pi" = "__builtins__" ∨ "pi" ∈ safeNames) := by
  have h : safe_eval I0 "pi" = .ok (.vfloat piQ) := by with_unfolding_all rfl
  exact ⟨h, claim_C1 I0 "pi" (.vfloat piQ) h [.ident "pi"] (.name "pi")
    (by rfl) (by rfl) "pi" (by decide)⟩

/-- C1 counterexample: `"(1).bit_length()"` passes the character
whitelist and the substring blacklist, parses to a call of the attribute
`bit_length` of the literal `1`, and evaluates — under the
interpretation whose attribute semantics is the host's `int.bit_length`
— to `1`.  The evaluator thus executes an attribute access and a method
outside the Allowed Symbol Set, refuting the claim's "no access to
arbitrary functions, attributes ... regardless of what the user
types". -/
theorem claim_C1_cex :
    allowedString "(1).bit_length()" = true ∧
    hasBadTok (safe_prepare "(1).bit_length()") = false ∧
    (tokenize (safe_prepare "(1).bit_length()").data).bind pyParse =
      some (.call (.attr (.num false 1) "bit_length") .nil) ∧
    safe_eval IB "(1).bit_length()" = .ok (.vint 1) ∧
    "bit_length" ∉ safeNames := by
  refine ⟨by decide, by decide, by with_unfolding_all rfl,
    by with_unfolding_all rfl, by decide⟩

/-! ## C2 stage A: decimal numerals -/

theorem cast_num_of_den_one {q : ℚ} (h : q.den = 1) : ((q.num : ℤ) : ℚ) = q := by
  have h2 := Rat.num_div_den q
  rw [h] at h2
  simpa using h2

theorem den_one_add {a b : ℚ} (ha : a.den = 1) (hb : b.den = 1) : (a + b).den = 1 := by
  rw [← cast_num_of_den_one ha, ← cast_num_of_den_one hb, ← Int.cast_add]
  exact Rat.den_intCast _

theorem den_one_sub {a b : ℚ} (ha : a.den = 1) (hb : b.den = 1) : (a - b).den = 1 := by
  rw [← cast_num_of_den_one ha, ← cast_num_of_den_one hb, ← Int.cast_sub]
  exact Rat.den_intCast _

theorem den_one_mul {a b : ℚ} (ha : a.den = 1) (hb : b.den = 1) : (a * b).den = 1 := by
  rw [← cast_num_of_den_one ha, ← cast_num_of_den_one hb, ← Int.cast_mul]
  exact Rat.den_intCast _

theorem toNumV_of_numQ {v : Value} {q : ℚ} (hnum : v.isNum = true) (hq : numQ v = some q) :
    ∃ flg, toNumV v = some (flg, q) ∧ (flg = false → q.den = 1) := by
  cases v with
  | vint n =>
    have hq2 : ((n : ℤ) : ℚ) = q := by simpa [numQ] using hq
    refine ⟨false, ?_, fun _ => ?_⟩
    · rw [show toNumV (.vint n) = some (false, ((n : ℤ) : ℚ)) from rfl, hq2]
    · rw [← hq2]
      exact Rat.den_intCast _
  | vfloat p =>
    have hq2 : p = q := by simpa [numQ] using hq
    refine ⟨true, ?_, fun h => by simp at h⟩
    rw [show toNumV (.vfloat p) = some (true, p) from rfl, hq2]
  | vfunc fid => simp [Value.isNum] at hnum
  | vmeth recv m => simp [Value.isNum] at hnum
  | vdict => simp [Value.isNum] at hnum

theorem mkNum_spec {flg : Bool} {q : ℚ} (h : flg = false → q.den = 1) :
    (mkNum flg q).isNum = true ∧ numQ (mkNum flg q) = some q := by
  cases flg with
  | false =>
    refine ⟨rfl, ?_⟩
    show some ((q.num : ℤ) : ℚ) = some q
    rw [cast_num_of_den_one (h rfl)]
  | true => exact ⟨rfl, rfl⟩

end Calc
